import Mathlib

/-!
Verification of the md-click documentation generator (src/md_click/main.py).

Text is modelled as `List Char`; a line is a `List Char` that contains no
newline character.  `splitlines` and `joinLines` model Python's
`str.splitlines()` (with `'\n'` as the only terminator, the only one these
texts use) and `'\n'.join(...)`.
-/

/-- Shorthand turning a string literal into the `List Char` text model. -/
def str (s : String) : List Char := s.data

/-- Python `c == ' ' or c == '\t'`, the whitespace test used by
`trim_docstring`'s `takewhile`. -/
def isWS (c : Char) : Bool := c = ' ' || c = '\t'

/-- Helper for `splitlines`: prepend a character to the first line of a
line list, creating a one-line list when there is none. -/
def consHead (c : Char) : List (List Char) → List (List Char)
  | [] => [[c]]
  | l :: ls => (c :: l) :: ls

/-- Python `str.splitlines()` restricted to `'\n'` terminators:
`"" ↦ []`, `"a\n" ↦ ["a"]`, `"a\n\n" ↦ ["a", ""]`. -/
def splitlines : List Char → List (List Char)
  | [] => []
  | c :: cs => if c = '\n' then [] :: splitlines cs else consHead c (splitlines cs)

/-- Python `'\n'.join(lines)`. -/
def joinLines : List (List Char) → List Char
  | [] => []
  | [l] => l
  | l :: l₂ :: ls => l ++ '\n' :: joinLines (l₂ :: ls)

/-- The line list produced inside `trim_empty_lines`: split, drop empty
lines from the front, then (via reverse) from the back. -/
def trimmedLines (data : List Char) : List (List Char) :=
  let lines := splitlines data
  let lines := lines.dropWhile (fun l => l.isEmpty)
  let lines := (lines.reverse.dropWhile (fun l => l.isEmpty)).reverse
  lines

/-- `trim_empty_lines` from main.py: remove empty lines from start and end
of the text. -/
def trim_empty_lines (data : List Char) : List Char :=
  joinLines (trimmedLines data)

/-- Number of leading whitespace characters of a line:
`len(list(itertools.takewhile(lambda x: x == ' ' or x == '\t', line)))`. -/
def leadingWS (line : List Char) : Nat := (line.takeWhile isWS).length

/-- The `common_indentation` computation of `trim_docstring`: the minimum
of `leadingWS` over the non-empty lines, `none` when there is no non-empty
line (Python's `min([])` raises `ValueError`). -/
def commonIndent (lines : List (List Char)) : Option Nat :=
  match (lines.filter (fun l => !l.isEmpty)).map leadingWS with
  | [] => none
  | x :: xs => some (xs.foldl min x)

/-- `trim_docstring` from main.py: remove common indentation from a
documentation string.  `none` models the uncaught `ValueError` raised by
`min([])` when no non-empty line remains. -/
def trim_docstring (data : List Char) : Option (List Char) :=
  let lines := splitlines (trim_empty_lines data)
  match commonIndent lines with
  | none => none
  | some ci => some (joinLines (lines.map (fun l => l.drop ci)))

example : splitlines (str "a\n") = [str "a"] := by decide
example : splitlines (str "a\n\nb") = [str "a", [], str "b"] := by decide
example : splitlines (str "") = [] := by decide
example : trim_empty_lines (str "\n\n  hi\n\n") = str "  hi" := by decide
example : trim_docstring (str "  Hello,\n   World!") = some (str "Hello,\n World!") := by
  decide
example : trim_docstring (str "\n\n") = none := by decide
example : trim_docstring (str " \n  a") = some (str "\n a") := by decide

/-! ### Basic facts about `splitlines` and `joinLines` -/

theorem splitlines_cons (c : Char) (cs : List Char) :
    splitlines (c :: cs) = if c = '\n' then [] :: splitlines cs else consHead c (splitlines cs) :=
  rfl

theorem joinLines_cons_cons (l l₂ : List Char) (ls : List (List Char)) :
    joinLines (l :: l₂ :: ls) = l ++ '\n' :: joinLines (l₂ :: ls) :=
  rfl

theorem mem_splitlines_ne_newline : ∀ (s : List Char), ∀ l ∈ splitlines s, '\n' ∉ l := by
  intro s
  induction s with
  | nil => intro l hl; simp [splitlines] at hl
  | cons c cs ih =>
    intro l hl
    by_cases hc : c = '\n'
    · rw [splitlines_cons, if_pos hc] at hl
      rcases List.mem_cons.1 hl with h | h
      · subst h; simp
      · exact ih l h
    · rw [splitlines_cons, if_neg hc] at hl
      cases hsp : splitlines cs with
      | nil =>
        rw [hsp] at hl
        simp only [consHead, List.mem_singleton] at hl
        subst hl
        intro hm
        exact hc (List.mem_singleton.1 hm).symm
      | cons hd tl =>
        rw [hsp] at hl
        simp only [consHead] at hl
        rcases List.mem_cons.1 hl with h | h
        · subst h
          intro hm
          rcases List.mem_cons.1 hm with h | h
          · exact hc h.symm
          · exact ih hd (hsp ▸ List.mem_cons_self hd tl) h
        · exact ih l (hsp ▸ List.mem_cons_of_mem hd h)

theorem splitlines_append_newline (t : List Char) :
    ∀ (l : List Char), '\n' ∉ l → splitlines (l ++ '\n' :: t) = l :: splitlines t := by
  intro l
  induction l with
  | nil => intro _; simp [splitlines]
  | cons c l ih =>
    intro h
    have hc : ¬ c = '\n' := fun e => h (e ▸ List.mem_cons_self c l)
    have hl : '\n' ∉ l := fun e => h (List.mem_cons_of_mem c e)
    rw [List.cons_append, splitlines_cons, if_neg hc, ih hl]
    rfl

theorem splitlines_no_newline : ∀ (l : List Char), '\n' ∉ l → l ≠ [] → splitlines l = [l] := by
  intro l
  induction l with
  | nil => intro _ h; exact absurd rfl h
  | cons c l ih =>
    intro h _
    have hc : ¬ c = '\n' := fun e => h (e ▸ List.mem_cons_self c l)
    have hl : '\n' ∉ l := fun e => h (List.mem_cons_of_mem c e)
    cases l with
    | nil => rw [splitlines_cons, if_neg hc]; rfl
    | cons d l' =>
      rw [splitlines_cons, if_neg hc, ih hl (by simp)]
      rfl

theorem splitlines_joinLines : ∀ (lines : List (List Char)),
    (∀ l ∈ lines, '\n' ∉ l) → lines.getLast? ≠ some [] →
    splitlines (joinLines lines) = lines := by
  intro lines
  induction lines with
  | nil => intro _ _; rfl
  | cons l ls ih =>
    intro hnl hlast
    cases ls with
    | nil =>
      have hl : l ≠ [] := by
        intro e; exact hlast (by simp [e])
      simpa [joinLines] using splitlines_no_newline l (hnl l (by simp)) hl
    | cons l₂ ls =>
      rw [joinLines_cons_cons, splitlines_append_newline _ l (hnl l (by simp))]
      rw [ih (fun x hx => hnl x (List.mem_cons_of_mem l hx)) (by simpa using hlast)]

/-! ### Facts about `dropWhile`, used through `trimmedLines` -/

theorem head?_dropWhile_not {α : Type} (p : α → Bool) :
    ∀ (xs : List α) (a : α), (xs.dropWhile p).head? = some a → p a = false := by
  intro xs
  induction xs with
  | nil => intro a h; simp [List.dropWhile] at h
  | cons x xs ih =>
    intro a h
    by_cases hp : p x
    · rw [List.dropWhile_cons, if_pos hp] at h
      exact ih a h
    · rw [List.dropWhile_cons, if_neg hp] at h
      simp only [List.head?_cons, Option.some.injEq] at h
      subst h
      exact Bool.eq_false_iff.2 hp
  
theorem getLast?_dropWhile {α : Type} (p : α → Bool) (xs : List α)
    (h : xs.dropWhile p ≠ []) : (xs.dropWhile p).getLast? = xs.getLast? := by
  conv_rhs => rw [← List.takeWhile_append_dropWhile (p := p) (l := xs)]
  rw [List.getLast?_append]
  rw [List.getLast?_eq_getLast _ h]
  simp

theorem exists_mem_dropWhile {α : Type} (p : α → Bool) :
    ∀ (xs : List α), (∃ x ∈ xs, p x = false) → ∃ x ∈ xs.dropWhile p, p x = false := by
  intro xs
  induction xs with
  | nil => intro ⟨x, hx, _⟩; simp at hx
  | cons y xs ih =>
    intro ⟨x, hx, hpx⟩
    by_cases hp : p y
    · rw [List.dropWhile_cons, if_pos hp]
      apply ih
      rcases List.mem_cons.1 hx with h | h
      · subst h; rw [hp] at hpx; cases hpx
      · exact ⟨x, h, hpx⟩
    · rw [List.dropWhile_cons, if_neg hp]
      exact ⟨x, hx, hpx⟩

theorem dropWhile_eq_self_of_head {α : Type} (p : α → Bool) (xs : List α)
    (h : ∀ a, xs.head? = some a → p a = false) : xs.dropWhile p = xs := by
  cases xs with
  | nil => rfl
  | cons x xs =>
    have := h x rfl
    rw [List.dropWhile_cons, if_neg (by simp [this])]

/-! ### Facts about `trimmedLines` -/

theorem trimmedLines_def (data : List Char) :
    trimmedLines data
      = ((((splitlines data).dropWhile (fun l => l.isEmpty)).reverse).dropWhile
        (fun l => l.isEmpty)).reverse := rfl

theorem mem_trimmedLines (data : List Char) :
    ∀ l ∈ trimmedLines data, l ∈ splitlines data := by
  intro l hl
  unfold trimmedLines at hl
  rw [List.mem_reverse] at hl
  have h1 := (List.dropWhile_sublist (l := ((splitlines data).dropWhile (fun l => l.isEmpty)).reverse) (fun l => l.isEmpty)).subset hl
  rw [List.mem_reverse] at h1
  exact (List.dropWhile_sublist (fun l => l.isEmpty)).subset h1

theorem trimmedLines_getLast (data : List Char) :
    ∀ l, (trimmedLines data).getLast? = some l → l ≠ [] := by
  intro l hl
  unfold trimmedLines at hl
  rw [List.getLast?_reverse] at hl
  have := head?_dropWhile_not (fun l => l.isEmpty) _ l hl
  simpa using this

theorem trimmedLines_head (data : List Char) :
    ∀ l, (trimmedLines data).head? = some l → l ≠ [] := by
  intro l hl
  unfold trimmedLines at hl
  rw [List.head?_reverse] at hl
  have hne : ((((splitlines data).dropWhile (fun l => l.isEmpty)).reverse).dropWhile
      (fun l => l.isEmpty)) ≠ [] := by
    intro e
    rw [e] at hl
    simp at hl
  rw [getLast?_dropWhile _ _ hne, List.getLast?_reverse] at hl
  have := head?_dropWhile_not (fun l => l.isEmpty) _ l hl
  simpa using this

theorem exists_mem_trimmedLines (data : List Char)
    (H : ∃ l ∈ splitlines data, l ≠ []) : ∃ l ∈ trimmedLines data, l ≠ [] := by
  rcases H with ⟨l, hl, hne⟩
  have h1 : ∃ x ∈ (splitlines data).dropWhile (fun l => l.isEmpty), x.isEmpty = false :=
    exists_mem_dropWhile _ _ ⟨l, hl, by simpa using hne⟩
  rcases h1 with ⟨x, hx, hxe⟩
  have h2 : ∃ y ∈ (((splitlines data).dropWhile (fun l => l.isEmpty)).reverse).dropWhile
      (fun l => l.isEmpty), y.isEmpty = false :=
    exists_mem_dropWhile _ _ ⟨x, List.mem_reverse.2 hx, hxe⟩
  rcases h2 with ⟨y, hy, hye⟩
  exact ⟨y, by unfold trimmedLines; rw [List.mem_reverse]; exact hy, by simpa using hye⟩

theorem splitlines_trim_empty_lines (data : List Char) :
    splitlines (trim_empty_lines data) = trimmedLines data := by
  unfold trim_empty_lines
  apply splitlines_joinLines
  · intro l hl
    exact mem_splitlines_ne_newline data l (mem_trimmedLines data l hl)
  · intro h
    exact trimmedLines_getLast data [] h rfl

/-! ### Facts about the minimum fold used by `commonIndent` -/

theorem foldl_min_le_init : ∀ (xs : List Nat) (x : Nat), xs.foldl min x ≤ x := by
  intro xs
  induction xs with
  | nil => intro x; exact Nat.le_refl x
  | cons y xs ih =>
    intro x
    calc (y :: xs).foldl min x = xs.foldl min (min x y) := rfl
    _ ≤ min x y := ih (min x y)
    _ ≤ x := Nat.min_le_left x y

theorem foldl_min_le_of_mem : ∀ (xs : List Nat) (x y : Nat), y ∈ xs → xs.foldl min x ≤ y := by
  intro xs
  induction xs with
  | nil => intro x y hy; simp at hy
  | cons z xs ih =>
    intro x y hy
    rcases List.mem_cons.1 hy with h | h
    · subst h
      calc (y :: xs).foldl min x = xs.foldl min (min x y) := rfl
      _ ≤ min x y := foldl_min_le_init xs (min x y)
      _ ≤ y := Nat.min_le_right x y
    · exact ih (min x z) y h

theorem foldl_min_mem : ∀ (xs : List Nat) (x : Nat),
    xs.foldl min x = x ∨ xs.foldl min x ∈ xs := by
  intro xs
  induction xs with
  | nil => intro x; exact Or.inl rfl
  | cons y xs ih =>
    intro x
    have h : (y :: xs).foldl min x = xs.foldl min (min x y) := rfl
    rcases ih (min x y) with h1 | h1
    · rcases min_choice x y with h2 | h2
      · exact Or.inl (by rw [h, h1, h2])
      · exact Or.inr (by rw [h, h1, h2]; exact List.mem_cons_self y xs)
    · exact Or.inr (by rw [h]; exact List.mem_cons_of_mem y h1)

/-! ### Facts about `commonIndent` -/

theorem commonIndent_isSome (lines : List (List Char))
    (H : ∃ l ∈ lines, l ≠ []) : ∃ m, commonIndent lines = some m := by
  rcases H with ⟨l, hl, hne⟩
  have hmem : l ∈ lines.filter (fun l => !l.isEmpty) :=
    List.mem_filter.2 ⟨hl, by simpa using hne⟩
  unfold commonIndent
  cases hh : (lines.filter (fun l => !l.isEmpty)).map leadingWS with
  | nil =>
    rw [List.map_eq_nil_iff] at hh
    rw [hh] at hmem
    simp at hmem
  | cons x xs => exact ⟨xs.foldl min x, rfl⟩

theorem commonIndent_le (lines : List (List Char)) (m : Nat)
    (H : commonIndent lines = some m) :
    ∀ l ∈ lines, l ≠ [] → m ≤ leadingWS l := by
  intro l hl hne
  have hmem : leadingWS l ∈ (lines.filter (fun l => !l.isEmpty)).map leadingWS :=
    List.mem_map_of_mem leadingWS (List.mem_filter.2 ⟨hl, by simpa using hne⟩)
  unfold commonIndent at H
  cases hh : (lines.filter (fun l => !l.isEmpty)).map leadingWS with
  | nil => rw [hh] at H; cases H
  | cons x xs =>
    rw [hh] at H hmem
    have hm : m = xs.foldl min x := by
      simpa using H.symm
    subst hm
    rcases List.mem_cons.1 hmem with h | h
    · rw [h]; exact foldl_min_le_init xs x
    · exact foldl_min_le_of_mem xs x _ h

theorem commonIndent_attained (lines : List (List Char)) (m : Nat)
    (H : commonIndent lines = some m) :
    ∃ l ∈ lines, l ≠ [] ∧ leadingWS l = m := by
  unfold commonIndent at H
  cases hh : (lines.filter (fun l => !l.isEmpty)).map leadingWS with
  | nil => rw [hh] at H; cases H
  | cons x xs =>
    rw [hh] at H
    have hm : m = xs.foldl min x := by
      simpa using H.symm
    have hmem : m ∈ (lines.filter (fun l => !l.isEmpty)).map leadingWS := by
      rw [hh]
      rcases foldl_min_mem xs x with h | h
      · rw [hm, h]; exact List.mem_cons_self x xs
      · exact List.mem_cons_of_mem x (hm ▸ h)
    rcases List.mem_map.1 hmem with ⟨l, hl, hlm⟩
    rcases List.mem_filter.1 hl with ⟨hl1, hl2⟩
    exact ⟨l, hl1, by simpa using hl2, hlm⟩

/-! ### Facts about `leadingWS` and `hasContent` -/

/-- A line contains at least one non-whitespace character (the strong sense
of a non-blank line). -/
def hasContent (l : List Char) : Bool := l.any (fun c => !isWS c)

theorem leadingWS_drop : ∀ (m : Nat) (l : List Char), m ≤ leadingWS l →
    leadingWS (l.drop m) + m = leadingWS l := by
  intro m
  induction m with
  | zero => intro l _; simp
  | succ k ih =>
    intro l hm
    cases l with
    | nil => simp [leadingWS] at hm
    | cons c l =>
      by_cases hc : isWS c
      · have h1 : leadingWS (c :: l) = leadingWS l + 1 := by
          simp [leadingWS, List.takeWhile_cons, hc]
        rw [h1] at hm
        have h2 := ih l (Nat.le_of_succ_le_succ hm)
        rw [List.drop_succ_cons, h1, ← h2]
        omega
      · have h1 : leadingWS (c :: l) = 0 := by
          simp [leadingWS, List.takeWhile_cons, hc]
        rw [h1] at hm
        cases hm
  
theorem leadingWS_lt_length : ∀ (l : List Char), hasContent l = true →
    leadingWS l < l.length := by
  intro l
  induction l with
  | nil => intro h; simp [hasContent] at h
  | cons c l ih =>
    intro h
    by_cases hc : isWS c
    · have hcont : hasContent l = true := by
        rcases List.any_eq_true.1 h with ⟨x, hx, hpx⟩
        rcases List.mem_cons.1 hx with he | he
        · subst he; rw [hc] at hpx; cases hpx
        · exact List.any_eq_true.2 ⟨x, he, hpx⟩
      have h1 : leadingWS (c :: l) = leadingWS l + 1 := by
        simp [leadingWS, List.takeWhile_cons, hc]
      rw [h1, List.length_cons]
      exact Nat.succ_lt_succ (ih hcont)
    · have h1 : leadingWS (c :: l) = 0 := by
        simp [leadingWS, List.takeWhile_cons, hc]
      rw [h1, List.length_cons]
      exact Nat.succ_pos _
  
theorem hasContent_drop : ∀ (m : Nat) (l : List Char), m ≤ leadingWS l →
    hasContent l = true → hasContent (l.drop m) = true := by
  intro m
  induction m with
  | zero => intro l _ h; simpa using h
  | succ k ih =>
    intro l hm hcont
    cases l with
    | nil => simp [leadingWS] at hm
    | cons c l =>
      by_cases hc : isWS c
      · have h1 : leadingWS (c :: l) = leadingWS l + 1 := by
          simp [leadingWS, List.takeWhile_cons, hc]
        rw [h1] at hm
        have hcl : hasContent l = true := by
          rcases List.any_eq_true.1 hcont with ⟨x, hx, hpx⟩
          rcases List.mem_cons.1 hx with he | he
          · subst he; rw [hc] at hpx; cases hpx
          · exact List.any_eq_true.2 ⟨x, he, hpx⟩
        rw [List.drop_succ_cons]
        exact ih l (Nat.le_of_succ_le_succ hm) hcl
      · have h1 : leadingWS (c :: l) = 0 := by
          simp [leadingWS, List.takeWhile_cons, hc]
        rw [h1] at hm
        cases hm

theorem drop_ne_nil_of_content (m : Nat) (l : List Char) (hm : m ≤ leadingWS l)
    (hcont : hasContent l = true) : l.drop m ≠ [] := by
  intro e
  have h1 : l.length ≤ m := by
    by_contra h
    rw [← List.length_eq_zero] at e
    rw [List.length_drop] at e
    omega
  exact Nat.lt_irrefl _ (Nat.lt_of_lt_of_le (Nat.lt_of_le_of_lt hm (leadingWS_lt_length l hcont)) h1)

/-! ### The main characterization of `trim_docstring` on well-behaved input -/

theorem trim_docstring_eq (data : List Char) :
    trim_docstring data =
      match commonIndent (trimmedLines data) with
      | none => none
      | some ci => some (joinLines ((trimmedLines data).map (fun l => l.drop ci))) := by
  unfold trim_docstring
  rw [splitlines_trim_empty_lines]

theorem trim_docstring_normalized (data : List Char)
    (H1 : ∃ l ∈ splitlines data, l ≠ [])
    (H2 : ∀ l ∈ splitlines data, l ≠ [] → hasContent l = true) :
    ∃ m, commonIndent (trimmedLines data) = some m ∧
      trim_docstring data = some (joinLines ((trimmedLines data).map (fun l => l.drop m))) ∧
      splitlines (joinLines ((trimmedLines data).map (fun l => l.drop m)))
        = (trimmedLines data).map (fun l => l.drop m) ∧
      (∀ l, ((trimmedLines data).map (fun l => l.drop m)).head? = some l → l ≠ []) ∧
      (∀ l, ((trimmedLines data).map (fun l => l.drop m)).getLast? = some l → l ≠ []) ∧
      commonIndent ((trimmedLines data).map (fun l => l.drop m)) = some 0 ∧
      (∀ l ∈ trimmedLines data, l ≠ [] → leadingWS (l.drop m) + m = leadingWS l) := by
  obtain ⟨m, hm⟩ := commonIndent_isSome _ (exists_mem_trimmedLines data H1)
  have hle : ∀ l ∈ trimmedLines data, l ≠ [] → m ≤ leadingWS l :=
    commonIndent_le _ m hm
  have hcontent : ∀ l ∈ trimmedLines data, l ≠ [] → hasContent l = true :=
    fun l hl hne => H2 l (mem_trimmedLines data l hl) hne
  have hhead : ∀ l, ((trimmedLines data).map (fun l => l.drop m)).head? = some l → l ≠ [] := by
    intro l hl
    rw [List.head?_map] at hl
    cases hh : (trimmedLines data).head? with
    | none => rw [hh] at hl; cases hl
    | some l₀ =>
      rw [hh] at hl
      simp only [Option.map_some', Option.some.injEq] at hl
      subst hl
      have hne₀ : l₀ ≠ [] := trimmedLines_head data l₀ hh
      have hmem₀ : l₀ ∈ trimmedLines data := List.mem_of_mem_head? (hh ▸ rfl)
      exact drop_ne_nil_of_content m l₀ (hle l₀ hmem₀ hne₀) (hcontent l₀ hmem₀ hne₀)
  have hlast : ∀ l, ((trimmedLines data).map (fun l => l.drop m)).getLast? = some l → l ≠ [] := by
    intro l hl
    rw [List.getLast?_map] at hl
    cases hh : (trimmedLines data).getLast? with
    | none => rw [hh] at hl; cases hl
    | some l₀ =>
      rw [hh] at hl
      simp only [Option.map_some', Option.some.injEq] at hl
      subst hl
      have hne₀ : l₀ ≠ [] := trimmedLines_getLast data l₀ hh
      have hmem₀ : l₀ ∈ trimmedLines data := List.mem_of_getLast?_eq_some hh
      exact drop_ne_nil_of_content m l₀ (hle l₀ hmem₀ hne₀) (hcontent l₀ hmem₀ hne₀)
  have hsplit : splitlines (joinLines ((trimmedLines data).map (fun l => l.drop m)))
      = (trimmedLines data).map (fun l => l.drop m) := by
    apply splitlines_joinLines
    · intro l hl
      rcases List.mem_map.1 hl with ⟨l₀, hl₀, he⟩
      subst he
      intro hmem
      exact mem_splitlines_ne_newline data l₀ (mem_trimmedLines data l₀ hl₀)
        ((List.drop_sublist m l₀).subset hmem)
    · intro h
      exact hlast [] h rfl
  have hzero : commonIndent ((trimmedLines data).map (fun l => l.drop m)) = some 0 := by
    obtain ⟨l₀, hl₀, hne₀, hWS₀⟩ := commonIndent_attained _ m hm
    have hmle : m ≤ leadingWS l₀ := hWS₀ ▸ Nat.le_refl m
    have hdmem : l₀.drop m ∈ (trimmedLines data).map (fun l => l.drop m) :=
      List.mem_map_of_mem _ hl₀
    have hdne : l₀.drop m ≠ [] :=
      drop_ne_nil_of_content m l₀ hmle (hcontent l₀ hl₀ hne₀)
    obtain ⟨m', hm'⟩ := commonIndent_isSome _ ⟨l₀.drop m, hdmem, hdne⟩
    have hd0 : leadingWS (l₀.drop m) = 0 := by
      have := leadingWS_drop m l₀ hmle
      omega
    have hle' : m' ≤ leadingWS (l₀.drop m) := commonIndent_le _ m' hm' _ hdmem hdne
    rw [hd0] at hle'
    rw [hm']
    exact congrArg some (Nat.le_zero.1 hle')
  refine ⟨m, hm, ?_, hsplit, hhead, hlast, hzero, ?_⟩
  · rw [trim_docstring_eq, hm]
  · intro l hl hne
    exact leadingWS_drop m l (hle l hl hne)

/-! ### Claims C3, C4, C9 about the docstring normalizer -/

/-- Claim C3, counterexample.  The claim states that for every input with at
least one non-blank line the normalizer output has zero leading/trailing
blank lines and zero columns of common indentation.  The input " \n  a" has
a non-blank line ("  a"), yet the output "\n a" starts with a blank (empty)
line and its non-empty lines still share one column of indentation: the
whitespace-only line " " is not removed by `trim_empty_lines` (which only
removes empty lines) and its length caps the common indentation. -/
theorem trim_docstring_claim_counterexample :
    (∃ l ∈ splitlines (str " \n  a"), hasContent l = true) ∧
    trim_docstring (str " \n  a") = some (str "\n a") ∧
    (splitlines (str "\n a")).head? = some [] ∧
    commonIndent (splitlines (str "\n a")) = some 1 := by
  decide

/-- Claim C3, amended.  For an input with at least one non-empty line in
which every non-empty line contains a non-whitespace character (no
whitespace-only lines), the normalizer succeeds and returns the text with
leading and trailing empty lines removed and each line stripped of the
minimum leading-whitespace count `m` of the non-empty lines: the result has
no leading or trailing blank line, exactly zero columns of common
indentation over its non-empty lines, and the relative indentation of the
non-empty lines is preserved (each is reduced by exactly `m`). -/
theorem trim_docstring_normalizes (data : List Char)
    (H1 : ∃ l ∈ splitlines data, l ≠ [])
    (H2 : ∀ l ∈ splitlines data, l ≠ [] → hasContent l = true) :
    ∃ m out, trim_docstring data = some out ∧
      commonIndent (trimmedLines data) = some m ∧
      splitlines out = (trimmedLines data).map (fun l => l.drop m) ∧
      (∀ l, (splitlines out).head? = some l → l ≠ []) ∧
      (∀ l, (splitlines out).getLast? = some l → l ≠ []) ∧
      commonIndent (splitlines out) = some 0 ∧
      (∀ l ∈ trimmedLines data, l ≠ [] → leadingWS (l.drop m) + m = leadingWS l) := by
  obtain ⟨m, hm, heq, hsplit, hhead, hlast, hzero, hrel⟩ := trim_docstring_normalized data H1 H2
  exact ⟨m, joinLines ((trimmedLines data).map (fun l => l.drop m)), heq, hm,
    hsplit, by rw [hsplit]; exact hhead, by rw [hsplit]; exact hlast,
    by rw [hsplit]; exact hzero, hrel⟩

/-- Claim C3, witness for the amended theorem at the concrete input
"\n   Hello,\n    World!\n\n". -/
theorem trim_docstring_normalizes_witness :
    (∃ l ∈ splitlines (str "\n   Hello,\n    World!\n\n"), l ≠ []) ∧
    (∀ l ∈ splitlines (str "\n   Hello,\n    World!\n\n"), l ≠ [] → hasContent l = true) ∧
    (∃ m out, trim_docstring (str "\n   Hello,\n    World!\n\n") = some out ∧
      commonIndent (trimmedLines (str "\n   Hello,\n    World!\n\n")) = some m ∧
      splitlines out
        = (trimmedLines (str "\n   Hello,\n    World!\n\n")).map (fun l => l.drop m) ∧
      (∀ l, (splitlines out).head? = some l → l ≠ []) ∧
      (∀ l, (splitlines out).getLast? = some l → l ≠ []) ∧
      commonIndent (splitlines out) = some 0 ∧
      (∀ l ∈ trimmedLines (str "\n   Hello,\n    World!\n\n"), l ≠ [] →
        leadingWS (l.drop m) + m = leadingWS l)) :=
  ⟨by decide, by decide, trim_docstring_normalizes _ (by decide) (by decide)⟩

/-- Claim C4.  For an input whose lines are all empty (so that after
trimming no line remains), the normalizer fails: the `min` of
`trim_docstring` is taken over an empty collection, which in the source
raises an uncaught `ValueError`; the model returns `none`, which every
caller propagates as a fault. -/
theorem trim_docstring_empty_input_fails (data : List Char)
    (H : ∀ l ∈ splitlines data, l = []) :
    trim_docstring data = none := by
  have h1 : (splitlines data).dropWhile (fun l => l.isEmpty) = [] :=
    List.dropWhile_eq_nil_iff.2 (fun x hx => by simpa using H x hx)
  have h2 : trimmedLines data = [] := by
    rw [trimmedLines_def, h1]
    rfl
  rw [trim_docstring_eq, h2]
  rfl

/-- Claim C4, witness at the concrete input "\n\n". -/
theorem trim_docstring_empty_input_fails_witness :
    (∀ l ∈ splitlines (str "\n\n"), l = []) ∧ trim_docstring (str "\n\n") = none :=
  ⟨by decide, trim_docstring_empty_input_fails _ (by decide)⟩

/-- Claim C9, counterexample.  Normalization is not idempotent: the input
"  \n   a" (whose lines are all non-empty, the first whitespace-only)
normalizes to "\n a", but normalizing "\n a" again gives "a".  The first
pass can turn a whitespace-only line into an empty line at the front, which
the second pass then removes before re-deriving a smaller indentation. -/
theorem trim_docstring_not_idempotent :
    trim_docstring (str "  \n   a") = some (str "\n a") ∧
    trim_docstring (str "\n a") = some (str "a") ∧
    str "\n a" ≠ str "a" := by
  decide

/-- Claim C9, amended.  On inputs with at least one non-empty line and no
whitespace-only lines, normalization is idempotent: applying
`trim_docstring` to its own output returns the output unchanged. -/
theorem trim_docstring_idempotent (data out : List Char)
    (H1 : ∃ l ∈ splitlines data, l ≠ [])
    (H2 : ∀ l ∈ splitlines data, l ≠ [] → hasContent l = true)
    (hout : trim_docstring data = some out) :
    trim_docstring out = some out := by
  obtain ⟨m, hm, heq, hsplit, hhead, hlast, hzero, _⟩ := trim_docstring_normalized data H1 H2
  rw [hout] at heq
  have hout' : out = joinLines ((trimmedLines data).map (fun l => l.drop m)) := by
    exact Option.some.inj heq
  have hsplit' : splitlines out = (trimmedLines data).map (fun l => l.drop m) := by
    rw [hout']; exact hsplit
  have hL1 : List.dropWhile (fun l => l.isEmpty)
      ((trimmedLines data).map (fun l => l.drop m))
      = (trimmedLines data).map (fun l => l.drop m) :=
    dropWhile_eq_self_of_head _ _ (fun a ha => by
      have h := hhead a ha
      cases a with
      | nil => exact absurd rfl h
      | cons x xs => rfl)
  have hL2 : List.dropWhile (fun l => l.isEmpty)
      (((trimmedLines data).map (fun l => l.drop m)).reverse)
      = ((trimmedLines data).map (fun l => l.drop m)).reverse :=
    dropWhile_eq_self_of_head _ _ (fun a ha => by
      rw [List.head?_reverse] at ha
      have h := hlast a ha
      cases a with
      | nil => exact absurd rfl h
      | cons x xs => rfl)
  have htrim : trimmedLines out = (trimmedLines data).map (fun l => l.drop m) := by
    rw [trimmedLines_def, hsplit', hL1, hL2, List.reverse_reverse]
  rw [trim_docstring_eq, htrim, hzero]
  simp only [List.drop_zero]
  rw [show ((trimmedLines data).map (fun l => l.drop m)).map (fun l => l) =
    (trimmedLines data).map (fun l => l.drop m) from List.map_id' _]
  rw [← hout']

/-- Claim C9, witness for the amended theorem at the concrete input
"  a\n   b". -/
theorem trim_docstring_idempotent_witness :
    (∃ l ∈ splitlines (str "  a\n   b"), l ≠ []) ∧
    (∀ l ∈ splitlines (str "  a\n   b"), l ≠ [] → hasContent l = true) ∧
    trim_docstring (str "  a\n   b") = some (str "a\n b") ∧
    trim_docstring (str "a\n b") = some (str "a\n b") :=
  ⟨by decide, by decide, by decide,
    trim_docstring_idempotent (str "  a\n   b") (str "a\n b") (by decide) (by decide)
      (by decide)⟩

/-! ### The command tree and the tree walker `recursive_help` -/

/-- A declared option/parameter of a command, as `dump_helper` reads it off
a click `Parameter` object: `name`, the flag spellings `opts`, and the
`prompt` / `required` / `default` / `help` / `type` attributes (string
values modelled as `List Char`, absent values as `none`). -/
structure Param where
  name : List Char
  opts : List (List Char)
  prompt : Option (List Char)
  required : Bool
  default : Option (List Char)
  help : Option (List Char)
  type : List Char
deriving DecidableEq, Repr

/-- A command node: its `name`, its raw `help` docstring (absent on a
command without help text), its declared parameters and its ordered mapping
of sub-commands (`commands.values()` order). -/
inductive Command where
  | mk (name : List Char) (help : Option (List Char)) (params : List Param)
       (commands : List Command)

def Command.name : Command → List Char
  | .mk n _ _ _ => n

def Command.help : Command → Option (List Char)
  | .mk _ h _ _ => h

def Command.params : Command → List Param
  | .mk _ _ ps _ => ps

def Command.commands : Command → List Command
  | .mk _ _ _ cs => cs

/-- The click framework services used by the walker: `cmd.get_help(ctx)`,
`cmd.get_usage(ctx)` and `cmd.collect_usage_pieces(ctx)` are external
rendering functions of the command, modelled as an environment. -/
structure ClickEnv where
  get_help : Command → List Char
  get_usage : Command → List Char
  collect_usage_pieces : Command → List (List Char)

/-- One descriptor yielded by `recursive_help`: the dict
`{"command": ..., "help": ..., "parent": ..., "usage": ..., "params": ...,
"options": ...}`. -/
structure HelpEntry where
  command : Command
  help : List Char
  parent : List Char
  usage : List Char
  params : List Param
  options : List (List Char)

mutual

/-- `recursive_help` from main.py: yield the descriptor of the node (with
`parent.info_name if parent else ''`), then recurse into each sub-command
in declared order, passing the node's context (whose `info_name` is the
node's name) as parent. -/
def recursive_help (env : ClickEnv) : Command → Option (List Char) → List HelpEntry
  | .mk n h ps cs, parent =>
    { command := .mk n h ps cs, help := env.get_help (.mk n h ps cs),
      parent := parent.getD [],
      usage := env.get_usage (.mk n h ps cs), params := ps,
      options := env.collect_usage_pieces (.mk n h ps cs) }
    :: recursive_helpSubs env cs n

/-- The inner `for sub in commands.values(): yield from recursive_help(sub, ctx)`. -/
def recursive_helpSubs (env : ClickEnv) : List Command → List Char → List HelpEntry
  | [], _ => []
  | c :: cs, pn => recursive_help env c (some pn) ++ recursive_helpSubs env cs pn

end

mutual

/-- Number of nodes of a command tree. -/
def Command.size : Command → Nat
  | .mk _ _ _ cs => 1 + sizeList cs

/-- Total number of nodes of a forest of command trees. -/
def sizeList : List Command → Nat
  | [] => 0
  | c :: cs => Command.size c + sizeList cs

end

mutual

/-- Specification-side pre-order listing of a command tree: the node (with
the display name of its parent) first, then the full subtree of each child
in declared order. -/
def preorder : Command → List Char → List (Command × List Char)
  | .mk n h ps cs, parentName => (Command.mk n h ps cs, parentName) :: preorderList cs n

/-- Pre-order listing of a forest, all children of a common parent. -/
def preorderList : List Command → List Char → List (Command × List Char)
  | [], _ => []
  | c :: cs, pn => preorder c pn ++ preorderList cs pn

end

mutual

theorem recursive_help_length_aux (env : ClickEnv) (c : Command) (p : Option (List Char)) :
    (recursive_help env c p).length = c.size := by
  cases c with
  | mk n h ps cs =>
    simp [recursive_help, Command.size, recursive_helpSubs_length_aux env cs n, Nat.add_comm]

theorem recursive_helpSubs_length_aux (env : ClickEnv) (cs : List Command) (pn : List Char) :
    (recursive_helpSubs env cs pn).length = sizeList cs := by
  cases cs with
  | nil => rfl
  | cons c cs =>
    simp [recursive_helpSubs, sizeList, recursive_help_length_aux env c (some pn),
      recursive_helpSubs_length_aux env cs pn]

end

mutual

theorem recursive_help_map_aux (env : ClickEnv) (c : Command) (p : Option (List Char)) :
    (recursive_help env c p).map (fun e => (e.command, e.parent)) = preorder c (p.getD []) := by
  cases c with
  | mk n h ps cs =>
    simp only [recursive_help, List.map_cons, preorder]
    rw [recursive_helpSubs_map_aux env cs n]

theorem recursive_helpSubs_map_aux (env : ClickEnv) (cs : List Command) (pn : List Char) :
    (recursive_helpSubs env cs pn).map (fun e => (e.command, e.parent))
      = preorderList cs pn := by
  cases cs with
  | nil => rfl
  | cons c cs =>
    simp only [recursive_helpSubs, preorderList, List.map_append]
    rw [recursive_help_map_aux env c (some pn), recursive_helpSubs_map_aux env cs pn]
    rfl

end

mutual

theorem recursive_help_fields_aux (env : ClickEnv) (c : Command) (p : Option (List Char)) :
    ∀ e ∈ recursive_help env c p,
      e.help = env.get_help e.command ∧ e.usage = env.get_usage e.command ∧
      e.params = e.command.params ∧ e.options = env.collect_usage_pieces e.command := by
  cases c with
  | mk n h ps cs =>
    intro e he
    rcases List.mem_cons.1 he with he | he
    · subst he
      exact ⟨rfl, rfl, rfl, rfl⟩
    · exact recursive_helpSubs_fields_aux env cs n e he

theorem recursive_helpSubs_fields_aux (env : ClickEnv) (cs : List Command) (pn : List Char) :
    ∀ e ∈ recursive_helpSubs env cs pn,
      e.help = env.get_help e.command ∧ e.usage = env.get_usage e.command ∧
      e.params = e.command.params ∧ e.options = env.collect_usage_pieces e.command := by
  cases cs with
  | nil => intro e he; simp [recursive_helpSubs] at he
  | cons c cs =>
    intro e he
    rcases List.mem_append.1 he with he | he
    · exact recursive_help_fields_aux env c (some pn) e he
    · exact recursive_helpSubs_fields_aux env cs pn e he

end

/-- Claim C7.  The tree walker yields the nodes of the command tree in
standard pre-order — root first, then each child's full subtree in declared
child order — and each descriptor carries the parent's display name (the
empty string at the root) together with the node's computed help text,
usage string, declared parameter list and usage-piece list. -/
theorem recursive_help_is_preorder (env : ClickEnv) (cmd : Command) :
    (recursive_help env cmd none).map (fun e => (e.command, e.parent)) = preorder cmd [] ∧
    ∀ e ∈ recursive_help env cmd none,
      e.help = env.get_help e.command ∧ e.usage = env.get_usage e.command ∧
      e.params = e.command.params ∧ e.options = env.collect_usage_pieces e.command :=
  ⟨recursive_help_map_aux env cmd none, recursive_help_fields_aux env cmd none⟩

/-- Claim C8.  The walker's traversal is finite: it yields exactly one
descriptor per node of the command tree, so the number of descriptors
equals (hence is bounded by) the size of the input command tree. -/
theorem recursive_help_finite (env : ClickEnv) (cmd : Command) (parent : Option (List Char)) :
    (recursive_help env cmd parent).length = cmd.size :=
  recursive_help_length_aux env cmd parent

/-! ### The option formatter and the per-command document renderer -/

/-- The per-option dict built inside `dump_helper`:
`{"usage": '\n'.join(opt.opts), "prompt": ..., "required": ...,
"default": ..., "help": ..., "type": ...}`. -/
structure OptDict where
  usage : List Char
  prompt : Option (List Char)
  required : Bool
  default : Option (List Char)
  help : Option (List Char)
  type : List Char
deriving DecidableEq, Repr

/-- Build the option dict of one parameter, as the dict comprehension in
`dump_helper` does. -/
def mkOptDict (p : Param) : OptDict :=
  { usage := joinLines p.opts, prompt := p.prompt, required := p.required,
    default := p.default, help := p.help, type := p.type }

/-- Insertion into a Python dict (insertion-ordered, a duplicate key keeps
its original position and takes the new value). -/
def dictInsert {β : Type} (k : List Char) (v : β) :
    List (List Char × β) → List (List Char × β)
  | [] => [(k, v)]
  | (k', v') :: d => if k = k' then (k', v) :: d else (k', v') :: dictInsert k v d

/-- Lookup in a Python dict. -/
def dictGet {β : Type} (k : List Char) : List (List Char × β) → Option β
  | [] => none
  | (k', v) :: d => if k = k' then some v else dictGet k d

/-- The `options` dict comprehension of `dump_helper`:
`{opt.name: {...} for opt in helpdct.get('params', [])}`. -/
def buildOptions (params : List Param) : List (List Char × OptDict) :=
  params.foldl (fun d p => dictInsert p.name (mkOptDict p) d) []

/-- `format_option` from main.py.  `cwd` is `os.getcwd()` at format time;
a default equal to it renders as the `<current directory>` placeholder. -/
def format_option (cwd : List Char) (opt : OptDict) : List Char :=
  let usage := List.intercalate (str ", ") (splitlines opt.usage)
  let required := if opt.required then str " (REQUIRED)" else []
  let default_value : Option (List Char) :=
    match opt.default with
    | some d => if d = cwd then some (str "<current directory>") else some d
    | none => none
  let res := str "* `" ++ usage ++ str "`" ++ required ++ str ": "
    ++ opt.help.getD [] ++ str "\n"
  match default_value with
  | some d => res ++ str "  * Default value: `" ++ d ++ str "`\n"
  | none => res

/-- The fixed `md_base_template` of main.py with its four used placeholders
substituted (the `help` keyword passed to `format` has no placeholder and
is dropped). -/
def md_base_template (command_name description usage options : List Char) : List Char :=
  str "# " ++ command_name ++ str "\n\n" ++ description ++ str "\n\n**Usage:** `"
    ++ usage ++ str "`\n\n**Options:**\n\n" ++ options ++ str "\n\n"

/-- The two uncaught faults that can escape rendering: `command.help is
None` makes `trim_empty_lines` call `.splitlines()` on `None`
(AttributeError), and a help with no non-empty line makes `trim_docstring`
call `min([])` (ValueError). -/
inductive RenderErr where
  | attrError
  | valueError
deriving DecidableEq, Repr

deriving instance DecidableEq for Except

/-- Python's `str(e)` for the two modelled faults. -/
def errString : RenderErr → List Char
  | .attrError => str "'NoneType' object has no attribute 'splitlines'"
  | .valueError => str "min() arg is an empty sequence"

/-- Running `trim_docstring(command.help)` on the raw attribute, which may
be `None`. -/
def trim_docstring_obj : Option (List Char) → Except RenderErr (List Char)
  | none => .error .attrError
  | some data =>
    match trim_docstring data with
    | none => .error .valueError
    | some s => .ok s

/-- Rendering of one descriptor in `dump_helper`'s loop body: build the
options dict, normalize the docstring and substitute into the template. -/
def renderEntry (cwd : List Char) (e : HelpEntry) : Except RenderErr (List Char) :=
  match trim_docstring_obj e.command.help with
  | .error err => .error err
  | .ok description =>
    .ok (md_base_template e.command.name description e.usage
      ((buildOptions e.params).map (fun kv => format_option cwd kv.2)).flatten)

/-- The output file name of a command:
`command.name.replace(' ', '-').lower() + '.md'`. -/
def sanitizeName (name : List Char) : List Char :=
  (name.map (fun c => if c = ' ' then '-' else c)).map Char.toLower ++ str ".md"

/-- One file write performed by `dump_helper` (path relative to the flat
destination directory). -/
structure FileWrite where
  path : List Char
  content : List Char
deriving DecidableEq, Repr

def renderOk : Except RenderErr (List Char) → Bool
  | .ok _ => true
  | .error _ => false

def renderVal : Except RenderErr (List Char) → List Char
  | .ok c => c
  | .error _ => []

/-- The write loop of `dump_helper` over the walker's descriptors: each
successfully rendered descriptor produces one write; the first rendering
fault aborts the loop (the exception propagates). -/
def processEntries (cwd : List Char) : List HelpEntry → List FileWrite × Option RenderErr
  | [] => ([], none)
  | e :: rest =>
    match renderEntry cwd e with
    | .error err => ([], some err)
    | .ok content =>
      let r := processEntries cwd rest
      ({ path := sanitizeName e.command.name, content := content } :: r.1, r.2)

/-- `dump_helper` from main.py: walk the tree and write one markdown file
per descriptor; returns the writes performed in order, and the fault that
aborted the loop, if any. -/
def dump_helper_run (cwd : List Char) (env : ClickEnv) (cmd : Command) :
    List FileWrite × Option RenderErr :=
  processEntries cwd (recursive_help env cmd none)

/-- Replay a list of writes against a directory (modelled as a map from
file name to content): a later write to the same name overwrites. -/
def applyWrites (ws : List FileWrite) (fs : List (List Char × List Char)) :
    List (List Char × List Char) :=
  ws.foldl (fun fs w => dictInsert w.path w.content fs) fs

example : sanitizeName (str "Sub Cmd") = str "sub-cmd.md" := by decide
example : format_option (str "/w") ⟨str "--a\n-b", none, true, some (str "/w"), none, str "T"⟩
    = str "* `--a, -b` (REQUIRED): \n  * Default value: `<current directory>`\n" := by decide

/-! ### Facts about dict insertion and write replay -/

theorem dictGet_dictInsert {β : Type} (k p : List Char) (v : β) :
    ∀ (d : List (List Char × β)),
      dictGet p (dictInsert k v d) = if p = k then some v else dictGet p d := by
  intro d
  induction d with
  | nil => simp [dictInsert, dictGet]
  | cons kv d ih =>
    obtain ⟨k', v'⟩ := kv
    by_cases hk : k = k'
    · subst hk
      by_cases hp : p = k
      · simp [dictInsert, dictGet, hp]
      · simp [dictInsert, dictGet, hp]
    · rw [dictInsert, if_neg hk]
      by_cases hp : p = k'
      · subst hp
        have hpk : ¬ p = k := fun e => hk (by rw [e])
        simp [dictGet, hpk]
      · simp [dictGet, hp, ih]

theorem getLast?_cons_match {α : Type} (a : α) (l : List α) :
    (a :: l).getLast? = match l.getLast? with | some x => some x | none => some a := by
  cases l with
  | nil => rfl
  | cons b l =>
    rw [List.getLast?_cons_cons]
    cases h : (b :: l).getLast? with
    | some x => rfl
    | none =>
      rw [List.getLast?_eq_none_iff] at h
      cases h

theorem applyWrites_lastWins (p : List Char) :
    ∀ (ws : List FileWrite) (fs : List (List Char × List Char)),
      dictGet p (applyWrites ws fs)
        = match (ws.filter (fun w => w.path = p)).getLast? with
          | some w => some w.content
          | none => dictGet p fs := by
  intro ws
  induction ws with
  | nil => intro fs; rfl
  | cons w ws ih =>
    intro fs
    have happ : applyWrites (w :: ws) fs = applyWrites ws (dictInsert w.path w.content fs) :=
      rfl
    rw [happ, ih]
    by_cases hw : w.path = p
    · rw [List.filter_cons, if_pos (by simpa using hw), getLast?_cons_match]
      cases hlast : (ws.filter (fun w => w.path = p)).getLast? with
      | some w' => rfl
      | none =>
        rw [dictGet_dictInsert, if_pos hw.symm]
    · rw [List.filter_cons, if_neg (by simpa using hw)]
      cases hlast : (ws.filter (fun w => w.path = p)).getLast? with
      | some w' => rfl
      | none =>
        rw [dictGet_dictInsert, if_neg (fun e => hw (by rw [e]))]

/-! ### Facts about the write loop -/

theorem processEntries_ok (cwd : List Char) :
    ∀ (es : List HelpEntry), (∀ e ∈ es, renderOk (renderEntry cwd e) = true) →
      processEntries cwd es
        = (es.map (fun e => FileWrite.mk (sanitizeName e.command.name)
            (renderVal (renderEntry cwd e))), none) := by
  intro es
  induction es with
  | nil => intro _; rfl
  | cons e rest ih =>
    intro H
    have he := H e (List.mem_cons_self e rest)
    cases hr : renderEntry cwd e with
    | error err => rw [hr] at he; simp [renderOk] at he
    | ok content =>
      have hrest := ih (fun x hx => H x (List.mem_cons_of_mem e hx))
      simp only [processEntries, hr, hrest, List.map_cons, renderVal]

theorem processEntries_err (cwd : List Char) :
    ∀ (es : List HelpEntry), (∃ e ∈ es, renderOk (renderEntry cwd e) = false) →
      (processEntries cwd es).2 ≠ none ∧ (processEntries cwd es).1.length < es.length := by
  intro es
  induction es with
  | nil => intro ⟨e, he, _⟩; simp at he
  | cons e rest ih =>
    intro ⟨x, hx, hxf⟩
    cases hr : renderEntry cwd e with
    | error err =>
      constructor
      · simp [processEntries, hr]
      · simp [processEntries, hr]
    | ok content =>
      have hxrest : x ∈ rest := by
        rcases List.mem_cons.1 hx with h | h
        · subst h; rw [hr] at hxf; simp [renderOk] at hxf
        · exact h
      obtain ⟨h1, h2⟩ := ih ⟨x, hxrest, hxf⟩
      constructor
      · simpa [processEntries, hr] using h1
      · have hlen : (processEntries cwd (e :: rest)).1.length
            = (processEntries cwd rest).1.length + 1 := by
          simp [processEntries, hr]
        rw [hlen, List.length_cons]
        exact Nat.succ_lt_succ h2

/-! ### The `dumps` driver -/

/-- The outcome of one `dumps` invocation: the messages printed in order,
whether the command re-raised an exception (making the process exit
non-zero), whether the destination directory was created during the run,
and the file writes performed. -/
structure DumpsOutcome where
  messages : List (List Char)
  raised : Bool
  dirCreated : Bool
  writes : List FileWrite

/-- Result of the dynamic module/attribute resolution performed by `dumps`:
the import raises (with message `str(e)`), the attribute lookup raises
`AttributeError`, or a root command object is obtained. -/
inductive Resolution where
  | moduleError (e : List Char)
  | attrError
  | ok (cmd : Command)

/-- `dumps` from main.py.  Prints the start line; on a module-import
failure or a missing attribute prints a diagnostic and returns (no raise,
exit code 0, nothing written, directory untouched); otherwise runs
`dump_helper`, and on a rendering fault prints the failure line and
re-raises, else prints the success line.  The directory is created inside
`dump_helper`, just before the first write, if it does not exist. -/
def dumps_run (base_module base_command docs_path : List Char) (res : Resolution)
    (cwd : List Char) (env : ClickEnv) (dirExists : Bool) : DumpsOutcome :=
  let startMsg := str "Creating a new documents from " ++ base_module ++ str "."
    ++ base_command ++ str " into " ++ docs_path
  match res with
  | .moduleError e =>
    { messages := [startMsg,
        str "Could not find module: " ++ base_module ++ str ". Error: " ++ e],
      raised := false, dirCreated := false, writes := [] }
  | .attrError =>
    { messages := [startMsg,
        str "Could not find command " ++ base_command ++ str " on module " ++ base_module],
      raised := false, dirCreated := false, writes := [] }
  | .ok cmd =>
    let r := dump_helper_run cwd env cmd
    match r.2 with
    | some err =>
      { messages := [startMsg, str "Dumps command failed: " ++ errString err],
        raised := true, dirCreated := !dirExists && !r.1.isEmpty, writes := r.1 }
    | none =>
      { messages := [startMsg, str "Created docs under " ++ docs_path],
        raised := false, dirCreated := !dirExists && !r.1.isEmpty, writes := r.1 }

/-! ### Claims C1, C10 about `dump_helper`, and C2 about `dumps` -/

/-- Claim C1.  When every node of the tree renders (help text present and
normalizable), the dump writes exactly one markdown file per command node —
`Command.size cmd` writes for `Command.size cmd` nodes, in traversal
order — each named by the node's name with spaces replaced by hyphens and
lower-cased plus ".md", flat in the destination directory; replaying the
writes shows that when two nodes sanitize to the same filename the write of
the node visited later in traversal order is the surviving content, with no
error raised and no collision detection. -/
theorem dump_helper_one_file_per_node (cwd : List Char) (env : ClickEnv) (cmd : Command)
    (H : ∀ e ∈ recursive_help env cmd none, renderOk (renderEntry cwd e) = true) :
    (dump_helper_run cwd env cmd).2 = none ∧
    (dump_helper_run cwd env cmd).1.length = cmd.size ∧
    (dump_helper_run cwd env cmd).1.map FileWrite.path
      = (recursive_help env cmd none).map (fun e => sanitizeName e.command.name) ∧
    ∀ p, dictGet p (applyWrites (dump_helper_run cwd env cmd).1 [])
      = match ((dump_helper_run cwd env cmd).1.filter (fun w => w.path = p)).getLast? with
        | some w => some w.content
        | none => none := by
  have hp := processEntries_ok cwd (recursive_help env cmd none) H
  unfold dump_helper_run
  rw [hp]
  refine ⟨rfl, ?_, ?_, ?_⟩
  · rw [List.length_map]
    exact recursive_help_length_aux env cmd none
  · simp [List.map_map]
  · intro p
    rw [applyWrites_lastWins]
    cases ((((recursive_help env cmd none).map fun e =>
        FileWrite.mk (sanitizeName e.command.name) (renderVal (renderEntry cwd e))).filter
        (fun w => w.path = p)).getLast?) with
    | some w => rfl
    | none => rfl

/-- A small concrete click environment for witnesses. -/
def demoEnv : ClickEnv :=
  { get_help := fun c => str "Usage: " ++ c.name,
    get_usage := fun c => str "Usage: " ++ c.name ++ str " [OPTIONS]",
    collect_usage_pieces := fun _ => [str "[OPTIONS]"] }

/-- A small concrete command tree for witnesses: a root with a space in its
name and one sub-command with one option. -/
def demoCmd : Command :=
  .mk (str "App Demo") (some (str "  Root help.")) []
    [.mk (str "Run") (some (str "  Run it."))
      [⟨str "name", [str "--name"], none, true, none, none, str "TEXT"⟩] []]

/-- Claim C1, witness: the dump over the two-node `demoCmd` performs
exactly two writes, named "app-demo.md" and "run.md". -/
theorem dump_helper_one_file_per_node_witness :
    (∀ e ∈ recursive_help demoEnv demoCmd none,
      renderOk (renderEntry (str "/w") e) = true) ∧
    ((dump_helper_run (str "/w") demoEnv demoCmd).2 = none ∧
     (dump_helper_run (str "/w") demoEnv demoCmd).1.length = demoCmd.size ∧
     (dump_helper_run (str "/w") demoEnv demoCmd).1.map FileWrite.path
       = (recursive_help demoEnv demoCmd none).map (fun e => sanitizeName e.command.name) ∧
     ∀ p, dictGet p (applyWrites (dump_helper_run (str "/w") demoEnv demoCmd).1 [])
       = match ((dump_helper_run (str "/w") demoEnv demoCmd).1.filter
            (fun w => w.path = p)).getLast? with
         | some w => some w.content
         | none => none) ∧
    (dump_helper_run (str "/w") demoEnv demoCmd).1.map FileWrite.path
      = [str "app-demo.md", str "run.md"] :=
  ⟨by decide, dump_helper_one_file_per_node (str "/w") demoEnv demoCmd (by decide), by decide⟩

/-- Claim C10.  A command node whose help attribute is absent makes the
renderer fail with the AttributeError raised inside the docstring
normalizer (`None.splitlines()`); the write loop stops before writing a
file for that node (strictly fewer writes than nodes), and the driver
prints the failure message and re-raises, so the whole batch terminates
with a non-zero exit. -/
theorem missing_help_aborts (cwd bm bc dp : List Char) (env : ClickEnv) (cmd : Command)
    (dirExists : Bool)
    (H : ∃ e ∈ recursive_help env cmd none, e.command.help = none) :
    (∀ e ∈ recursive_help env cmd none, e.command.help = none →
      renderEntry cwd e = .error .attrError) ∧
    (dump_helper_run cwd env cmd).2 ≠ none ∧
    (dump_helper_run cwd env cmd).1.length < (recursive_help env cmd none).length ∧
    (dumps_run bm bc dp (.ok cmd) cwd env dirExists).raised = true := by
  have hrender : ∀ e : HelpEntry, e.command.help = none →
      renderEntry cwd e = .error .attrError := by
    intro e he
    unfold renderEntry trim_docstring_obj
    rw [he]
  obtain ⟨x, hx, hxh⟩ := H
  have herr := processEntries_err cwd (recursive_help env cmd none)
    ⟨x, hx, by rw [hrender x hxh]; rfl⟩
  refine ⟨fun e _ he => hrender e he, herr.1, herr.2, ?_⟩
  unfold dumps_run
  cases h2 : (dump_helper_run cwd env cmd).2 with
  | none => exact absurd h2 herr.1
  | some err => simp [h2]

/-- A command tree whose sub-command has no help text, for the C10
witness. -/
def noHelpCmd : Command :=
  .mk (str "root") (some (str "  Root help.")) []
    [.mk (str "bare") none [] []]

/-- Claim C10, witness: dumping `noHelpCmd` writes only the root file and
raises. -/
theorem missing_help_aborts_witness :
    (∃ e ∈ recursive_help demoEnv noHelpCmd none, e.command.help = none) ∧
    ((∀ e ∈ recursive_help demoEnv noHelpCmd none, e.command.help = none →
      renderEntry (str "/w") e = .error .attrError) ∧
    (dump_helper_run (str "/w") demoEnv noHelpCmd).2 ≠ none ∧
    (dump_helper_run (str "/w") demoEnv noHelpCmd).1.length
      < (recursive_help demoEnv noHelpCmd none).length ∧
    (dumps_run (str "m") (str "c") (str "docs") (.ok noHelpCmd) (str "/w") demoEnv
      false).raised = true) :=
  ⟨by decide, missing_help_aborts (str "/w") (str "m") (str "c") (str "docs") demoEnv
    noHelpCmd false (by decide)⟩

/-- The two resolution-failure diagnostics are distinct for every module
name, command name and import error text: after the shared prefix
"Could not find " one continues with 'm' and the other with 'c'. -/
theorem module_msg_ne_attr_msg (bm bc e : List Char) :
    str "Could not find module: " ++ bm ++ str ". Error: " ++ e
      ≠ str "Could not find command " ++ bc ++ str " on module " ++ bm := by
  intro h
  have s1 : str "Could not find module: " = str "Could not find " ++ ('m' :: str "odule: ") := by
    decide
  have s2 : str "Could not find command " = str "Could not find " ++ ('c' :: str "ommand ") := by
    decide
  rw [s1, s2, List.append_assoc, List.append_assoc, List.append_assoc, List.append_assoc,
    List.append_assoc, List.append_assoc, List.cons_append, List.cons_append] at h
  have h2 := List.append_cancel_left h
  cases h2

/-- Claim C2.  On a module-import failure or on a missing attribute,
`dumps` prints a diagnostic (a distinct one for each of the two failures),
returns early without raising — so the process exits 0 — performs no write,
and leaves the destination directory untouched (not created). -/
theorem dumps_resolution_failures (bm bc dp e cwd : List Char) (env : ClickEnv)
    (dirExists : Bool) :
    (dumps_run bm bc dp (.moduleError e) cwd env dirExists).raised = false ∧
    (dumps_run bm bc dp .attrError cwd env dirExists).raised = false ∧
    (str "Could not find module: " ++ bm ++ str ". Error: " ++ e)
      ∈ (dumps_run bm bc dp (.moduleError e) cwd env dirExists).messages ∧
    (str "Could not find command " ++ bc ++ str " on module " ++ bm)
      ∈ (dumps_run bm bc dp .attrError cwd env dirExists).messages ∧
    (str "Could not find module: " ++ bm ++ str ". Error: " ++ e)
      ≠ (str "Could not find command " ++ bc ++ str " on module " ++ bm) ∧
    (dumps_run bm bc dp (.moduleError e) cwd env dirExists).dirCreated = false ∧
    (dumps_run bm bc dp .attrError cwd env dirExists).dirCreated = false ∧
    (dumps_run bm bc dp (.moduleError e) cwd env dirExists).writes = [] ∧
    (dumps_run bm bc dp .attrError cwd env dirExists).writes = [] :=
  ⟨rfl, rfl, by simp [dumps_run], by simp [dumps_run], module_msg_ne_attr_msg bm bc e,
    rfl, rfl, rfl, rfl⟩

/-! ### Claims C5 and C6 about the options rendering -/

theorem dictInsert_fresh {β : Type} (k : List Char) (v : β) :
    ∀ (d : List (List Char × β)), (∀ kv ∈ d, kv.1 ≠ k) →
      dictInsert k v d = d ++ [(k, v)] := by
  intro d
  induction d with
  | nil => intro _; rfl
  | cons kv d ih =>
    intro H
    obtain ⟨k', v'⟩ := kv
    have hne : ¬ k = k' := fun e => H (k', v') (List.mem_cons_self _ _) e.symm
    rw [dictInsert, if_neg hne, ih (fun x hx => H x (List.mem_cons_of_mem _ hx))]
    rfl

theorem foldl_dictInsert_nodup :
    ∀ (params : List Param) (d : List (List Char × OptDict)),
      (∀ p ∈ params, ∀ kv ∈ d, kv.1 ≠ p.name) →
      (params.map Param.name).Nodup →
      params.foldl (fun d p => dictInsert p.name (mkOptDict p) d) d
        = d ++ params.map (fun p => (p.name, mkOptDict p)) := by
  intro params
  induction params with
  | nil => intro d _ _; simp
  | cons p ps ih =>
    intro d hfresh hnodup
    have h1 : dictInsert p.name (mkOptDict p) d = d ++ [(p.name, mkOptDict p)] :=
      dictInsert_fresh _ _ d (fun kv hkv => hfresh p (List.mem_cons_self p ps) kv hkv)
    have hnod : p.name ∉ ps.map Param.name ∧ (ps.map Param.name).Nodup :=
      List.nodup_cons.1 (by simpa using hnodup)
    have hfresh' : ∀ q ∈ ps, ∀ kv ∈ d ++ [(p.name, mkOptDict p)], kv.1 ≠ q.name := by
      intro q hq kv hkv
      rcases List.mem_append.1 hkv with hkv | hkv
      · exact hfresh q (List.mem_cons_of_mem p hq) kv hkv
      · have hkv1 : kv.1 = p.name := by
          have he : kv = (p.name, mkOptDict p) := by simpa using hkv
          rw [he]
        rw [hkv1]
        intro e
        apply hnod.1
        rw [e]
        exact List.mem_map_of_mem Param.name hq
    have hstep : (p :: ps).foldl (fun d p => dictInsert p.name (mkOptDict p) d) d
        = ps.foldl (fun d p => dictInsert p.name (mkOptDict p) d)
            (dictInsert p.name (mkOptDict p) d) := rfl
    rw [hstep, h1, ih (d ++ [(p.name, mkOptDict p)]) hfresh' hnod.2]
    simp

theorem buildOptions_nodup (params : List Param) (H : (params.map Param.name).Nodup) :
    buildOptions params = params.map (fun p => (p.name, mkOptDict p)) := by
  unfold buildOptions
  rw [foldl_dictInsert_nodup params [] (fun p _ kv hkv => absurd hkv (List.not_mem_nil kv)) H]
  simp

/-- A descriptor with two declared options that share the name "x", for the
C5 counterexample. -/
def dupEntry : HelpEntry :=
  ⟨.mk (str "dup") (some (str "D.")) [] [], [], [], str "u",
    [⟨str "x", [str "--a"], none, false, none, none, str "T"⟩,
     ⟨str "x", [str "--b"], none, false, none, none, str "T"⟩], []⟩

/-- Claim C5, counterexample.  Two declared options sharing the name "x"
are NOT both rendered: `dump_helper` keys its options by `opt.name` in a
dict comprehension, so the later option overwrites the earlier one's data
and only one bullet (here `--b`) appears, not the claimed concatenation of
both in declared order. -/
theorem options_dedup_counterexample :
    renderEntry [] dupEntry
      = .ok (md_base_template (str "dup") (str "D.") (str "u") (str "* `--b`: \n")) ∧
    renderEntry [] dupEntry
      ≠ .ok (md_base_template (str "dup") (str "D.") (str "u")
          ((dupEntry.params.map (fun p => format_option [] (mkOptDict p))).flatten)) ∧
    (dupEntry.params.map (fun p => format_option [] (mkOptDict p))).flatten
      = str "* `--a`: \n* `--b`: \n" := by
  decide

/-- Claim C5, amended.  The options section is the concatenation of the
formatter's output over the values of an insertion-ordered dict keyed by
option name (a later option with a duplicate name replaces the earlier
one's data, so duplicates are rendered once); when the declared option
names are pairwise distinct — the normal click situation — this equals the
concatenation over the declared options in declared order, with no sorting,
including any framework-internal "help" option. -/
theorem options_rendered_in_declared_order (cwd : List Char) (e : HelpEntry)
    (d : List Char) (Hd : trim_docstring_obj e.command.help = .ok d)
    (H : (e.params.map Param.name).Nodup) :
    renderEntry cwd e = .ok (md_base_template e.command.name d e.usage
      ((e.params.map (fun p => format_option cwd (mkOptDict p))).flatten)) := by
  simp only [renderEntry, Hd]
  rw [buildOptions_nodup e.params H]
  simp [List.map_map, Function.comp_def]

/-- A descriptor with two distinctly-named options, for the C5 witness. -/
def okEntry : HelpEntry :=
  ⟨.mk (str "ok") (some (str " Ok.")) [] [], [], [], str "u",
    [⟨str "a", [str "--a"], none, false, none, none, str "T"⟩,
     ⟨str "b", [str "--b"], none, true, some (str "3"), some (str "bee"), str "INT"⟩], []⟩

/-- Claim C5, witness for the amended theorem on `okEntry`. -/
theorem options_rendered_in_declared_order_witness :
    trim_docstring_obj okEntry.command.help = .ok (str "Ok.") ∧
    (okEntry.params.map Param.name).Nodup ∧
    renderEntry (str "/w") okEntry
      = .ok (md_base_template okEntry.command.name (str "Ok.") okEntry.usage
          ((okEntry.params.map (fun p => format_option (str "/w") (mkOptDict p))).flatten)) :=
  ⟨by decide, by decide,
    options_rendered_in_declared_order (str "/w") okEntry (str "Ok.") (by decide) (by decide)⟩

/-- Claim C6.  For every option whose flag spellings are non-empty and
newline-free (every click option spelling is), the formatter produces one
bullet: the spellings joined with ", " in inline code, a " (REQUIRED)"
suffix exactly when the required flag is set, then ": " and the help text
(empty if absent), a newline, and — exactly when a default is present — an
indented "* Default value:" line, whose value is the literal placeholder
"<current directory>" when the default equals the process's current
working directory at format time. -/
theorem format_option_contract (cwd : List Char) (p : Param)
    (H : ∀ o ∈ p.opts, o ≠ [] ∧ '\n' ∉ o) :
    format_option cwd (mkOptDict p)
      = str "* `" ++ List.intercalate (str ", ") p.opts ++ str "`"
        ++ (if p.required then str " (REQUIRED)" else []) ++ str ": "
        ++ p.help.getD [] ++ str "\n"
        ++ (match p.default with
          | some d => str "  * Default value: `"
              ++ (if d = cwd then str "<current directory>" else d) ++ str "`\n"
          | none => []) := by
  have hsplit : splitlines (joinLines p.opts) = p.opts := by
    apply splitlines_joinLines
    · intro l hl
      exact (H l hl).2
    · intro hl
      exact (H [] (List.mem_of_getLast?_eq_some hl)).1 rfl
  simp only [format_option, mkOptDict, hsplit]
  cases hd : p.default with
  | none => simp
  | some d =>
    by_cases hc : d = cwd
    · simp [hc, List.append_assoc]
    · simp [hc, List.append_assoc]

/-- Claim C6, witness: a required option with two spellings whose default
is the current working directory. -/
theorem format_option_contract_witness :
    (∀ o ∈ [str "--path", str "-p"], o ≠ [] ∧ '\n' ∉ o) ∧
    format_option (str "/w")
        (mkOptDict ⟨str "path", [str "--path", str "-p"], none, true, some (str "/w"),
          some (str "the path"), str "PATH"⟩)
      = str "* `" ++ List.intercalate (str ", ") [str "--path", str "-p"] ++ str "`"
        ++ (if true then str " (REQUIRED)" else []) ++ str ": "
        ++ (some (str "the path")).getD [] ++ str "\n"
        ++ (match some (str "/w") with
          | some d => str "  * Default value: `"
              ++ (if d = str "/w" then str "<current directory>" else d) ++ str "`\n"
          | none => []) :=
  ⟨by decide, format_option_contract (str "/w")
    ⟨str "path", [str "--path", str "-p"], none, true, some (str "/w"),
      some (str "the path"), str "PATH"⟩ (by decide)⟩
